import Mathlib

/-!
Verification development for `linear_irl.py`: a shallow embedding, over `ℚ`,
of the value-iteration solver (`value_iteration`), the reward normalizer
(`normalise`), the linear-program formulator (`linear_irl`) and the
orchestrator (`irl`), followed by theorems settling the specification claims.

Modelling conventions:
* machine floats are modelled by exact rationals `ℚ`;
* numpy arrays are total functions (`Fin n → ℚ` for fixed-size vectors,
  `ℕ → ℕ → ℚ` for the LP matrix, unwritten cells being the `np.zeros` value 0);
* `np.argmax` is `List.argmax` over indices in order (first maximizer),
  `np.max`/`np.min` are `Finset.sup'`/`Finset.inf'`;
* `np.linalg.inv` is the adjugate/determinant formula (`npInv`), the exact
  inverse for invertible input;
* the external LP solver (`cvxopt.solvers.lp`) is an opaque parameter that
  returns `some x` (an optimal point) or `none` (no solution vector,
  modelling `sol['x'] = None` on infeasibility);
* the unbounded `while True` loop of value iteration is given explicit fuel
  and returns `none` when the fuel is exhausted (modelling divergence).
-/

namespace LinearIRL

instance finNonempty (n : ℕ) [NeZero n] : Nonempty (Fin n) :=
  ⟨⟨0, Nat.pos_of_ne_zero (NeZero.ne n)⟩⟩

/-- An OpenAI-gym style finite environment, as consumed by `value_iteration`:
`P s a` is the list `env.P[s][a]` of transition tuples
`(prob, next_state, reward, done)`. -/
structure Env (nS nA : ℕ) where
  P : Fin nS → Fin nA → List (ℚ × Fin nS × ℚ × Bool)

variable {nS nA n : ℕ}

/-- `np.argmax` over a vector indexed by `Fin n`: the index of the first
occurrence of the maximum value. -/
def npArgmax [NeZero n] (f : Fin n → ℚ) : Fin n :=
  ((List.finRange n).argmax f).getD ⟨0, Nat.pos_of_ne_zero (NeZero.ne n)⟩

/-- `one_step_lookahead` from the source: the expected value of action `a` in
state `s`, `A[a] = Σ_(prob,next,reward,done) prob * (reward + γ * V[next])`. -/
def lookahead (env : Env nS nA) (γ : ℚ) (V : Fin nS → ℚ) (s : Fin nS) (a : Fin nA) : ℚ :=
  ((env.P s a).map fun t => t.1 * (t.2.2.1 + γ * V t.2.1)).sum

/-- `np.max(A)` over the lookahead vector of state `s`. -/
def bestVal [NeZero nA] (env : Env nS nA) (γ : ℚ) (V : Fin nS → ℚ) (s : Fin nS) : ℚ :=
  Finset.univ.sup' Finset.univ_nonempty (lookahead env γ V s)

/-- The in-place state sweep of the value-iteration loop body: walks the given
list of states, overwriting `V[s]` with the best lookahead value and folding
`delta = max delta |best - V[s]|`, exactly as lines 44-53 of the source. -/
def sweepAux [NeZero nA] (env : Env nS nA) (γ : ℚ) :
    List (Fin nS) → (Fin nS → ℚ) × ℚ → (Fin nS → ℚ) × ℚ
  | [], p => p
  | s :: rest, (V, δ) =>
    sweepAux env γ rest
      (Function.update V s (bestVal env γ V s), max δ |bestVal env γ V s - V s|)

/-- One full sweep over all states (`for s in range(env.nS)`), starting from
`delta = 0`. -/
def sweepAll [NeZero nA] (env : Env nS nA) (γ : ℚ) (V : Fin nS → ℚ) : (Fin nS → ℚ) × ℚ :=
  sweepAux env γ (List.finRange nS) (V, 0)

/-- `n`-fold iteration of the full sweep (the value function after `n` passes
of the `while True` loop). -/
def iterSweep [NeZero nA] (env : Env nS nA) (γ : ℚ) : ℕ → (Fin nS → ℚ) → Fin nS → ℚ
  | 0, V => V
  | m + 1, V => (sweepAll env γ (iterSweep env γ m V)).1

/-- The `while True` loop of `value_iteration` with explicit fuel: sweep, then
exit when `delta < theta`.  `none` models non-termination within the fuel. -/
def valueIterLoop [NeZero nA] (env : Env nS nA) (θ γ : ℚ) :
    ℕ → (Fin nS → ℚ) → Option (Fin nS → ℚ)
  | 0, _ => none
  | fuel + 1, V =>
    let p := sweepAll env γ V
    if p.2 < θ then some p.1 else valueIterLoop env θ γ fuel p.1

/-- The deterministic policy extracted after convergence: probability 1 on
`np.argmax` of the final lookahead, 0 elsewhere (lines 59-65 of the source,
starting from `np.zeros`). -/
def policyOf [NeZero nA] (env : Env nS nA) (γ : ℚ) (V : Fin nS → ℚ) : Fin nS → Fin nA → ℚ :=
  fun s a => if a = npArgmax (lookahead env γ V s) then 1 else 0

/-- `value_iteration(env, theta, discount_factor)` from the source, with
explicit fuel for the unbounded loop; returns `(policy, V)`. -/
def value_iteration [NeZero nA] (env : Env nS nA) (θ γ : ℚ) (fuel : ℕ) :
    Option ((Fin nS → Fin nA → ℚ) × (Fin nS → ℚ)) :=
  (valueIterLoop env θ γ fuel fun _ => 0).map fun V => (policyOf env γ V, V)

/-- `np.min(vals)`. -/
def minV [NeZero n] (v : Fin n → ℚ) : ℚ := Finset.univ.inf' Finset.univ_nonempty v

/-- `np.max(vals)`. -/
def maxV [NeZero n] (v : Fin n → ℚ) : ℚ := Finset.univ.sup' Finset.univ_nonempty v

/-- `normalise(vals)` from the source: `(vals - min) / (max - min)`.
The function is total: on a constant vector the denominator is 0 and the
(exact-arithmetic) division by zero yields 0 — no exception is raised. -/
def normalise [NeZero n] (v : Fin n → ℚ) : Fin n → ℚ :=
  fun i => (v i - minV v) / (maxV v - minV v)

/-- `np.linalg.inv`, embedded by the adjugate formula: for invertible `M` this
is the matrix inverse that `np.linalg.inv` computes. -/
def npInv (M : Matrix (Fin n) (Fin n) ℚ) : Matrix (Fin n) (Fin n) ℚ :=
  M.det⁻¹ • M.adjugate

/-- The slice `trans_probs[:, :, a]` as an `nS × nS` matrix. -/
def Pmat (P : Fin nS → Fin nS → Fin nA → ℚ) (a : Fin nA) : Matrix (Fin nS) (Fin nS) ℚ :=
  Matrix.of fun s s' => P s s' a

/-- `a_opt = np.argmax(policy[i])`. -/
def aOpt [NeZero nA] (policy : Fin nS → Fin nA → ℚ) (i : Fin nS) : Fin nA :=
  npArgmax (policy i)

/-- `tmp_inv = np.linalg.inv(np.identity(nS) - gamma * trans_probs[:, :, a])`. -/
def tmpInv (P : Fin nS → Fin nS → Fin nA → ℚ) (γ : ℚ) (a : Fin nA) :
    Matrix (Fin nS) (Fin nS) ℚ :=
  npInv (1 - γ • Pmat P a)

/-- The non-optimal actions of state `i` in increasing index order: the values
taken by `a` in the inner loop (`for a in range(nA): if a != a_opt`), in the
order in which `cnt` counts them. -/
def nonOptCore (aopt : Fin nS → Fin nA) (i : Fin nS) : List (Fin nA) :=
  (List.finRange nA).filter fun a => decide (a ≠ aopt i)

/-- The row vector `np.dot(trans_probs[i,:,a_opt] - trans_probs[i,:,a], tmp_inv)`
whose negation fills the reward block of both policy-constraint rows. -/
def qrowCore (P : Fin nS → Fin nS → Fin nA → ℚ) (aopt : Fin nS → Fin nA) (γ : ℚ)
    (i : Fin nS) (a : Fin nA) : Fin nS → ℚ :=
  fun j => ∑ k : Fin nS, (P i k (aopt i) - P i k a) * tmpInv P γ (aopt i) k j

/-- The inequality matrix `A` of the LP built by `linear_irl`, as a function of
row and column index (cells never written by the source keep the `np.zeros`
value 0).  The row blocks follow the source exactly:
rows `[0, nS*(nA-1))` are the direct policy-optimality rows,
rows `[nS*(nA-1), 2*nS*(nA-1))` the linked rows carrying coefficient 1 on `u_i`,
then `nS` rows `R_i ≤ r_max`, `nS` rows `-R_i ≤ 0`, and two slack blocks of
`nS` rows each.  Note that the source writes `+1` at column `i` in BOTH slack
blocks (lines 109 and 113), which this embedding reproduces faithfully. -/
def AmatCore (P : Fin nS → Fin nS → Fin nA → ℚ) [NeZero nA] (aopt : Fin nS → Fin nA)
    (γ : ℚ) : ℕ → ℕ → ℚ :=
  fun r j =>
    if h1 : r < nS * (nA - 1) then
      let i : Fin nS := ⟨r / (nA - 1), Nat.div_lt_of_lt_mul (by rwa [Nat.mul_comm] at h1)⟩
      let a : Fin nA :=
        (nonOptCore aopt i).getD (r % (nA - 1)) ⟨0, Nat.pos_of_ne_zero (NeZero.ne nA)⟩
      if hj : j < nS then -qrowCore P aopt γ i a ⟨j, hj⟩ else 0
    else if h2 : r < 2 * nS * (nA - 1) then
      let hr : r - nS * (nA - 1) < nS * (nA - 1) := by
        have h4 : 2 * nS * (nA - 1) = nS * (nA - 1) + nS * (nA - 1) := by ring
        omega
      let i : Fin nS := ⟨(r - nS * (nA - 1)) / (nA - 1),
        Nat.div_lt_of_lt_mul (by
          have h5 : (nA - 1) * nS = nS * (nA - 1) := Nat.mul_comm _ _
          omega)⟩
      let a : Fin nA :=
        (nonOptCore aopt i).getD ((r - nS * (nA - 1)) % (nA - 1))
          ⟨0, Nat.pos_of_ne_zero (NeZero.ne nA)⟩
      if hj : j < nS then -qrowCore P aopt γ i a ⟨j, hj⟩
      else if j = nS + i.val then 1 else 0
    else if r < 2 * nS * (nA - 1) + nS then
      if j = r - 2 * nS * (nA - 1) then 1 else 0
    else if r < 2 * nS * (nA - 1) + 2 * nS then
      if j = r - (2 * nS * (nA - 1) + nS) then -1 else 0
    else if r < 2 * nS * (nA - 1) + 3 * nS then
      if j = r - (2 * nS * (nA - 1) + 2 * nS) then 1
      else if j = 2 * nS + (r - (2 * nS * (nA - 1) + 2 * nS)) then -1 else 0
    else if r < 2 * nS * (nA - 1) + 4 * nS then
      if j = r - (2 * nS * (nA - 1) + 3 * nS) then 1
      else if j = 2 * nS + (r - (2 * nS * (nA - 1) + 3 * nS)) then -1 else 0
    else 0

/-- The LP matrix of `linear_irl` for a given policy: the policy enters only
through `a_opt = np.argmax(policy[i])`. -/
def Amat [NeZero nA] (P : Fin nS → Fin nS → Fin nA → ℚ) (policy : Fin nS → Fin nA → ℚ)
    (γ : ℚ) : ℕ → ℕ → ℚ :=
  AmatCore P (aOpt policy) γ

/-- The bound vector `b`: `r_max` on the `R_i ≤ r_max` block, 0 elsewhere. -/
def bvec (nS nA : ℕ) (rmax : ℚ) : ℕ → ℚ :=
  fun r => if 2 * nS * (nA - 1) ≤ r ∧ r < 2 * nS * (nA - 1) + nS then rmax else 0

/-- The objective vector `c`: 0 on the reward block, -1 on the `u` block,
`l1` on the `z` block. -/
def cvec (nS : ℕ) (l1 : ℚ) : ℕ → ℚ :=
  fun j => if j < nS then 0 else if j < 2 * nS then -1 else if j < 3 * nS then l1 else 0

/-- A point `x` satisfies inequality row `r` of the LP. -/
def rowSat (nS : ℕ) (A : ℕ → ℕ → ℚ) (b : ℕ → ℚ) (x : ℕ → ℚ) (r : ℕ) : Prop :=
  (Finset.range (3 * nS)).sum (fun j => A r j * x j) ≤ b r

/-- `x` is a feasible point of the LP `(A, b)` built by `linear_irl`. -/
def Feasible (nS nA : ℕ) (A : ℕ → ℕ → ℚ) (b : ℕ → ℚ) (x : ℕ → ℚ) : Prop :=
  ∀ r < 2 * nS * (nA + 1), rowSat nS A b x r

instance rowSatDecidable (nS : ℕ) (A : ℕ → ℕ → ℚ) (b : ℕ → ℚ) (x : ℕ → ℚ) (r : ℕ) :
    Decidable (rowSat nS A b x r) :=
  inferInstanceAs (Decidable (_ ≤ _))

instance feasibleDecidable (nS nA : ℕ) (A : ℕ → ℕ → ℚ) (b : ℕ → ℚ) (x : ℕ → ℚ) :
    Decidable (Feasible nS nA A b x) :=
  inferInstanceAs (Decidable (∀ r < 2 * nS * (nA + 1), rowSat nS A b x r))

/-- Errors a `linear_irl` call can surface with.  The source raises only a
`TypeError` (from `sol['x'][:nS]` when `sol['x']` is `None`); the
`irlInfeasible` constructor exists to state the spec's taxonomy. -/
inductive IRLError where
  | typeError
  | irlInfeasible
  deriving DecidableEq

/-- The external LP solver: consumes `(c, A, b)` and returns the optimal
vector `sol['x']`, or `none` when there is no solution vector (infeasible). -/
def Solver : Type :=
  (ℕ → ℚ) → (ℕ → ℕ → ℚ) → (ℕ → ℚ) → Option (ℕ → ℚ)

/-- `linear_irl(trans_probs, policy, gamma, l1, r_max)` from the source.
On `sol['x'] = None` the subscript `sol['x'][:nS]` raises a `TypeError`;
otherwise the first `nS` entries are normalised and scaled by `r_max`. -/
def linear_irl [NeZero nS] [NeZero nA] (P : Fin nS → Fin nS → Fin nA → ℚ)
    (policy : Fin nS → Fin nA → ℚ) (γ l1 rmax : ℚ) (solver : Solver) :
    Except IRLError (Fin nS → ℚ) :=
  match solver (cvec nS l1) (Amat P policy γ) (bvec nS nA rmax) with
  | none => .error .typeError
  | some x => .ok fun i => normalise (fun k : Fin nS => x k.val) i * rmax

/-- The transition tensor the orchestrator builds from `env.P`:
`trans_probs[state][next_state][action] = prob` for the single (first)
transition tuple of each `(state, action)`. -/
def transProbsOf (env : Env nS nA) : Fin nS → Fin nS → Fin nA → ℚ :=
  fun s s' a =>
    match (env.P s a).head? with
    | some t => if t.2.1 = s' then t.1 else 0
    | none => 0

/-- The reward vector the orchestrator builds: `rewards[next_state] = reward`,
written in iteration order over `(state, action)` (later writes win). -/
def rewardsOf [NeZero nS] (env : Env nS nA) : Fin nS → ℚ :=
  (List.finRange nS).foldl
    (fun acc s =>
      (List.finRange nA).foldl
        (fun acc2 a =>
          match (env.P s a).head? with
          | some t => Function.update acc2 t.2.1 t.2.2.1
          | none => acc2)
        acc)
    (fun _ => 0)

/-- `irl(env, ...)` from the source, up to (and excluding) the plotting calls:
computes `(rewards, values, recovered_rewards, recovered_values)`.
Line 138 of the source computes `recovered_values` by calling
`value_iteration(env)` again on the ORIGINAL environment, with the default
discount factor 0.9 and default theta 0.001; this embedding is faithful
to that call. -/
def irl [NeZero nS] [NeZero nA] (env : Env nS nA) (γ l1 rmax : ℚ) (solver : Solver)
    (fuel : ℕ) :
    Option (Except IRLError
      ((Fin nS → ℚ) × (Fin nS → ℚ) × (Fin nS → ℚ) × (Fin nS → ℚ))) :=
  match value_iteration env (1 / 1000) γ fuel with
  | none => none
  | some (policy, values) =>
    match linear_irl (transProbsOf env) policy γ l1 rmax solver with
    | .error e => some (.error e)
    | .ok recR =>
      match value_iteration env (1 / 1000) (9 / 10) fuel with
      | none => none
      | some (_, recV) => some (.ok (rewardsOf env, values, recR, recV))

/-- The environment is a (finite) MDP: in every transition list the
probabilities are nonnegative and sum to 1. -/
def IsMDP (env : Env nS nA) : Prop :=
  ∀ s a, (∀ t ∈ env.P s a, 0 ≤ t.1) ∧ ((env.P s a).map fun t => t.1).sum = 1

instance isMDPDecidable (env : Env nS nA) : Decidable (IsMDP env) :=
  inferInstanceAs
    (Decidable (∀ s a, (∀ t ∈ env.P s a, 0 ≤ t.1) ∧ ((env.P s a).map fun t => t.1).sum = 1))

/-! Concrete instances used by counterexamples, witnesses and evaluations. -/

/-- A 1-state, 1-action environment: a self-loop with probability 1, reward 0. -/
def env1 : Env 1 1 := ⟨fun _ _ => [(1, 0, 0, false)]⟩

/-- A 2-state, 1-action environment: every transition moves to state 1 with
probability 1 and reward 0. -/
def env2 : Env 2 1 := ⟨fun _ _ => [(1, 1, 0, false)]⟩

/-- `env2` with the recovered reward `(0, 5)` installed: every transition
(into state 1) carries reward 5. -/
def env2R : Env 2 1 := ⟨fun _ _ => [(1, 1, 5, false)]⟩

/-- A 1-state, 2-action transition tensor: both actions are the certain
self-loop. -/
def Pc : Fin 1 → Fin 1 → Fin 2 → ℚ := fun _ _ _ => 1

/-- A deterministic 1-state policy choosing action 0. -/
def polc : Fin 1 → Fin 2 → ℚ := fun _ a => if a = 0 then 1 else 0

/-- A different (non-deterministic) policy with the same per-row argmax as
`polc`. -/
def polc' : Fin 1 → Fin 2 → ℚ := fun _ a => if a = 0 then 2 else 1

/-- A concrete feasible point of the LP for `(Pc, polc)`:
`R_0 = 1`, `u_0 = -5`, `z_0 = 1`. -/
def xc : ℕ → ℚ := fun j => if j = 0 then 1 else if j = 1 then -5 else if j = 2 then 1 else 0

/-- The LP solution vector returned by the mock solver: `x = (0, 1, 0, 0, 0, 0)`. -/
def mockX : ℕ → ℚ := fun j => if j = 1 then 1 else 0

/-- A mock external LP solver returning the fixed vector `mockX`. -/
def mockSolver : Solver := fun _ _ _ => some mockX

/-- A mock external LP solver reporting no solution vector (infeasibility). -/
def noneSolver : Solver := fun _ _ _ => none

instance exceptDecEq {ε α : Type} [DecidableEq ε] [DecidableEq α] :
    DecidableEq (Except ε α) := fun x y =>
  match x, y with
  | .error a, .error b =>
    if h : a = b then .isTrue (by rw [h]) else .isFalse fun hc => h (Except.error.inj hc)
  | .error _, .ok _ => .isFalse fun hc => Except.noConfusion hc
  | .ok _, .error _ => .isFalse fun hc => Except.noConfusion hc
  | .ok a, .ok b =>
    if h : a = b then .isTrue (by rw [h]) else .isFalse fun hc => h (Except.ok.inj hc)

/-! ### General helper lemmas -/

theorem eq_some_getD {α : Type} (o : Option α) (d : α) (h : o.isSome = true) :
    o = some (o.getD d) := by
  cases o with
  | none => simp at h
  | some a => simp

theorem eq_ok_toOption_getD {ε α : Type} (e : Except ε α) (d : α)
    (h : e.toOption.isSome = true) : e = .ok (e.toOption.getD d) := by
  cases e with
  | error a => simp [Except.toOption] at h
  | ok a => simp [Except.toOption]

theorem npArgmax_le [NeZero n] (f : Fin n → ℚ) (a : Fin n) : f a ≤ f (npArgmax f) := by
  have hne : List.finRange n ≠ [] := by
    simp [List.finRange_eq_nil, NeZero.ne n]
  obtain ⟨m, hm⟩ : ∃ m, (List.finRange n).argmax f = some m := by
    cases h : (List.finRange n).argmax f with
    | none => exact absurd (List.argmax_eq_none.mp h) hne
    | some m => exact ⟨m, rfl⟩
  have hA : npArgmax f = m := by unfold npArgmax; rw [hm]; rfl
  rw [hA]
  exact List.le_of_mem_argmax (List.mem_finRange a) (Option.mem_def.mpr hm)

theorem npArgmax_first [NeZero n] (f : Fin n → ℚ) (a : Fin n)
    (h : f (npArgmax f) ≤ f a) : npArgmax f ≤ a := by
  have hne : List.finRange n ≠ [] := by
    simp [List.finRange_eq_nil, NeZero.ne n]
  obtain ⟨m, hm⟩ : ∃ m, (List.finRange n).argmax f = some m := by
    cases hh : (List.finRange n).argmax f with
    | none => exact absurd (List.argmax_eq_none.mp hh) hne
    | some m => exact ⟨m, rfl⟩
  have hA : npArgmax f = m := by unfold npArgmax; rw [hm]; rfl
  rw [hA] at h ⊢
  have hidx := List.index_of_argmax (Option.mem_def.mpr hm) (List.mem_finRange a) h
  rw [List.indexOf_finRange, List.indexOf_finRange] at hidx
  exact hidx

theorem lookahead_zeroV (env : Env nS nA) (γ : ℚ) (s : Fin nS) (a : Fin nA)
    (hz : ∀ t ∈ env.P s a, t.2.2.1 = 0) :
    lookahead env γ (fun _ => 0) s a = 0 := by
  unfold lookahead
  refine List.sum_eq_zero ?_
  intro x hx
  obtain ⟨t, ht, rfl⟩ := List.mem_map.mp hx
  rw [hz t ht]
  ring

theorem bestVal_zeroV [NeZero nA] (env : Env nS nA) (γ : ℚ) (s : Fin nS)
    (hz : ∀ a, ∀ t ∈ env.P s a, t.2.2.1 = 0) :
    bestVal env γ (fun _ => 0) s = 0 := by
  unfold bestVal
  rw [show lookahead env γ (fun _ => 0) s = fun _ => 0 from
    funext fun a => lookahead_zeroV env γ s a (hz a)]
  exact Finset.sup'_const _ _

theorem sweepAux_zeroV [NeZero nA] (env : Env nS nA) (γ : ℚ)
    (hz : ∀ s a, ∀ t ∈ env.P s a, t.2.2.1 = 0) (L : List (Fin nS)) :
    sweepAux env γ L (fun _ => 0, 0) = (fun _ => 0, 0) := by
  induction L with
  | nil => rfl
  | cons s rest ih =>
    show sweepAux env γ rest
      (Function.update (fun _ => 0) s (bestVal env γ (fun _ => 0) s),
        max 0 |bestVal env γ (fun _ => 0) s - (fun _ : Fin nS => (0:ℚ)) s|) = _
    rw [bestVal_zeroV env γ s (hz s)]
    have hu : Function.update (fun _ : Fin nS => (0:ℚ)) s 0 = fun _ => 0 :=
      Function.update_eq_self s _
    rw [hu]
    norm_num
    exact ih

theorem length_filter_ne {α : Type} [DecidableEq α] (l : List α) (x : α)
    (hn : l.Nodup) (hm : x ∈ l) :
    (l.filter fun a => decide (a ≠ x)).length = l.length - 1 := by
  induction l with
  | nil => cases hm
  | cons y t ih =>
    rcases List.mem_cons.mp hm with rfl | hmt
    · have hxt : x ∉ t := (List.nodup_cons.mp hn).1
      have hft : t.filter (fun a => decide (a ≠ x)) = t :=
        List.filter_eq_self.mpr fun a ha => decide_eq_true fun hax => hxt (hax ▸ ha)
      have hc : decide (x ≠ x) = false := by simp
      rw [List.filter_cons, hc, if_neg Bool.false_ne_true, hft, List.length_cons]
      omega
    · have hyx : y ≠ x := fun hyx => (List.nodup_cons.mp hn).1 (hyx ▸ hmt)
      have ht := ih (List.nodup_cons.mp hn).2 hmt
      have hlen : 1 ≤ t.length := List.length_pos.mpr (List.ne_nil_of_mem hmt)
      rw [List.filter_cons, decide_eq_true hyx, if_pos rfl, List.length_cons,
        List.length_cons, ht]
      omega

theorem nonOptCore_length [NeZero nA] (aopt : Fin nS → Fin nA) (i : Fin nS) :
    (nonOptCore aopt i).length = nA - 1 := by
  unfold nonOptCore
  rw [length_filter_ne _ _ (List.nodup_finRange nA) (List.mem_finRange _),
    List.length_finRange]

theorem mem_nonOptCore [NeZero nA] (aopt : Fin nS → Fin nA) (i : Fin nS) (a : Fin nA) :
    a ∈ nonOptCore aopt i ↔ a ≠ aopt i := by
  unfold nonOptCore
  rw [List.mem_filter]
  simp [List.mem_finRange]

theorem AmatCore_polRow1 [NeZero nS] [NeZero nA] (P : Fin nS → Fin nS → Fin nA → ℚ)
    (aopt : Fin nS → Fin nA) (γ : ℚ) (i : Fin nS) (a : Fin nA) (h : a ≠ aopt i) (j : ℕ) :
    AmatCore P aopt γ (i.val * (nA - 1) + (nonOptCore aopt i).indexOf a) j =
      if hj : j < nS then -qrowCore P aopt γ i a ⟨j, hj⟩ else 0 := by
  have hmem : a ∈ nonOptCore aopt i := (mem_nonOptCore aopt i a).mpr h
  have hidx := List.indexOf_lt_length.mpr hmem
  have hcnt : (nonOptCore aopt i).indexOf a < nA - 1 := by
    rwa [nonOptCore_length] at hidx
  have hpos : 0 < nA - 1 := lt_of_le_of_lt (Nat.zero_le _) hcnt
  have hr1 : i.val * (nA - 1) + (nonOptCore aopt i).indexOf a < nS * (nA - 1) := by
    have h1 : i.val * (nA - 1) + (nonOptCore aopt i).indexOf a < (i.val + 1) * (nA - 1) := by
      have : (i.val + 1) * (nA - 1) = i.val * (nA - 1) + (nA - 1) := by ring
      omega
    exact lt_of_lt_of_le h1 (Nat.mul_le_mul_right _ i.isLt)
  have hdiv : (i.val * (nA - 1) + (nonOptCore aopt i).indexOf a) / (nA - 1) = i.val := by
    rw [Nat.mul_comm i.val, Nat.mul_add_div hpos, Nat.div_eq_of_lt hcnt, Nat.add_zero]
  have hmod : (i.val * (nA - 1) + (nonOptCore aopt i).indexOf a) % (nA - 1) =
      (nonOptCore aopt i).indexOf a := by
    rw [Nat.mul_comm i.val, Nat.mul_add_mod, Nat.mod_eq_of_lt hcnt]
  have hget : ∀ d, (nonOptCore aopt i).getD ((nonOptCore aopt i).indexOf a) d = a := by
    intro d
    rw [List.getD_eq_getElem _ _ hidx]
    exact List.getElem_indexOf hidx
  unfold AmatCore
  rw [dif_pos hr1]
  simp only [hdiv, hmod, Fin.eta, hget]

theorem AmatCore_polRow2 [NeZero nS] [NeZero nA] (P : Fin nS → Fin nS → Fin nA → ℚ)
    (aopt : Fin nS → Fin nA) (γ : ℚ) (i : Fin nS) (a : Fin nA) (h : a ≠ aopt i) (j : ℕ) :
    AmatCore P aopt γ (nS * (nA - 1) + (i.val * (nA - 1) + (nonOptCore aopt i).indexOf a)) j =
      if hj : j < nS then -qrowCore P aopt γ i a ⟨j, hj⟩
      else if j = nS + i.val then 1 else 0 := by
  have hmem : a ∈ nonOptCore aopt i := (mem_nonOptCore aopt i a).mpr h
  have hidx := List.indexOf_lt_length.mpr hmem
  have hcnt : (nonOptCore aopt i).indexOf a < nA - 1 := by
    rwa [nonOptCore_length] at hidx
  have hpos : 0 < nA - 1 := lt_of_le_of_lt (Nat.zero_le _) hcnt
  have hr1 : i.val * (nA - 1) + (nonOptCore aopt i).indexOf a < nS * (nA - 1) := by
    have h1 : i.val * (nA - 1) + (nonOptCore aopt i).indexOf a < (i.val + 1) * (nA - 1) := by
      have : (i.val + 1) * (nA - 1) = i.val * (nA - 1) + (nA - 1) := by ring
      omega
    exact lt_of_lt_of_le h1 (Nat.mul_le_mul_right _ i.isLt)
  have hno : ¬ nS * (nA - 1) + (i.val * (nA - 1) + (nonOptCore aopt i).indexOf a) <
      nS * (nA - 1) := by omega
  have htwo : 2 * nS * (nA - 1) = nS * (nA - 1) + nS * (nA - 1) := by ring
  have hlt2 : nS * (nA - 1) + (i.val * (nA - 1) + (nonOptCore aopt i).indexOf a) <
      2 * nS * (nA - 1) := by omega
  have hsub : nS * (nA - 1) + (i.val * (nA - 1) + (nonOptCore aopt i).indexOf a) -
      nS * (nA - 1) = i.val * (nA - 1) + (nonOptCore aopt i).indexOf a := by omega
  have hdiv : (i.val * (nA - 1) + (nonOptCore aopt i).indexOf a) / (nA - 1) = i.val := by
    rw [Nat.mul_comm i.val, Nat.mul_add_div hpos, Nat.div_eq_of_lt hcnt, Nat.add_zero]
  have hmod : (i.val * (nA - 1) + (nonOptCore aopt i).indexOf a) % (nA - 1) =
      (nonOptCore aopt i).indexOf a := by
    rw [Nat.mul_comm i.val, Nat.mul_add_mod, Nat.mod_eq_of_lt hcnt]
  have hget : ∀ d, (nonOptCore aopt i).getD ((nonOptCore aopt i).indexOf a) d = a := by
    intro d
    rw [List.getD_eq_getElem _ _ hidx]
    exact List.getElem_indexOf hidx
  unfold AmatCore
  rw [dif_neg hno, dif_pos hlt2]
  simp only [hsub, hdiv, hmod, Fin.eta, hget]

theorem sum_dite_reward (nS : ℕ) (g : Fin nS → ℚ) (x : ℕ → ℚ) :
    ∑ j ∈ Finset.range (3 * nS), (if hj : j < nS then g ⟨j, hj⟩ else 0) * x j
      = ∑ j : Fin nS, g j * x j.val := by
  have hsub : Finset.range nS ⊆ Finset.range (3 * nS) :=
    Finset.range_subset.mpr (by omega)
  have hvan : ∀ j ∈ Finset.range (3 * nS), j ∉ Finset.range nS →
      (if hj : j < nS then g ⟨j, hj⟩ else 0) * x j = 0 := by
    intro j _ hj
    rw [dif_neg (by simpa using hj), zero_mul]
  rw [← Finset.sum_subset hsub hvan,
    ← Fin.sum_univ_eq_sum_range (fun m => (if hm : m < nS then g ⟨m, hm⟩ else 0) * x m) nS]
  refine Finset.sum_congr rfl fun j _ => ?_
  rw [dif_pos j.isLt]

theorem polRow2_entry_split (nS : ℕ) (q : Fin nS → ℚ) (iv : ℕ) (x : ℕ → ℚ) (j : ℕ) :
    (if hj : j < nS then -q ⟨j, hj⟩ else if j = nS + iv then 1 else 0) * x j
      = (if hj : j < nS then -q ⟨j, hj⟩ else 0) * x j +
        (if j = nS + iv then x j else 0) := by
  by_cases hj : j < nS
  · rw [dif_pos hj, dif_pos hj, if_neg (by omega)]
    ring
  · rw [dif_neg hj, dif_neg hj]
    by_cases he : j = nS + iv
    · rw [if_pos he, if_pos he]
      ring
    · rw [if_neg he, if_neg he]
      ring

theorem polRows_cover [NeZero nS] [NeZero nA] (aopt : Fin nS → Fin nA) :
    ∀ r < 2 * nS * (nA - 1), ∃ (i : Fin nS) (a : Fin nA), a ≠ aopt i ∧
      (r = i.val * (nA - 1) + (nonOptCore aopt i).indexOf a ∨
       r = nS * (nA - 1) + (i.val * (nA - 1) + (nonOptCore aopt i).indexOf a)) := by
  have key : ∀ r' < nS * (nA - 1), ∃ (i : Fin nS) (a : Fin nA), a ≠ aopt i ∧
      r' = i.val * (nA - 1) + (nonOptCore aopt i).indexOf a := by
    intro r' hr'
    have hpos : 0 < nA - 1 := by
      rcases Nat.eq_zero_or_pos (nA - 1) with h0 | h0
      · rw [h0, Nat.mul_zero] at hr'
        omega
      · exact h0
    have hiv : r' / (nA - 1) < nS := Nat.div_lt_of_lt_mul (by rwa [Nat.mul_comm] at hr')
    refine ⟨⟨r' / (nA - 1), hiv⟩, ?_⟩
    have hcnt : r' % (nA - 1) < nA - 1 := Nat.mod_lt _ hpos
    have hlen : r' % (nA - 1) < (nonOptCore aopt ⟨r' / (nA - 1), hiv⟩).length := by
      rw [nonOptCore_length]
      exact hcnt
    refine ⟨(nonOptCore aopt ⟨r' / (nA - 1), hiv⟩).get ⟨r' % (nA - 1), hlen⟩, ?_, ?_⟩
    · exact (mem_nonOptCore _ _ _).mp (List.get_mem _ _ _)
    · have hnd : (nonOptCore aopt ⟨r' / (nA - 1), hiv⟩).Nodup :=
        List.Nodup.filter _ (List.nodup_finRange nA)
      have hidxa := List.get_indexOf hnd ⟨r' % (nA - 1), hlen⟩
      rw [hidxa]
      simp only [Fin.val_mk]
      have hc : (nA - 1) * (r' / (nA - 1)) = (r' / (nA - 1)) * (nA - 1) := Nat.mul_comm _ _
      have hdm := Nat.div_add_mod r' (nA - 1)
      omega
  intro r hr
  have htwo : 2 * nS * (nA - 1) = nS * (nA - 1) + nS * (nA - 1) := by ring
  rcases Nat.lt_or_ge r (nS * (nA - 1)) with h1 | h1
  · obtain ⟨i, a, hne, heq⟩ := key r h1
    exact ⟨i, a, hne, Or.inl heq⟩
  · have hr' : r - nS * (nA - 1) < nS * (nA - 1) := by omega
    obtain ⟨i, a, hne, heq⟩ := key _ hr'
    exact ⟨i, a, hne, Or.inr (by omega)⟩

theorem sweepAux_fst_of_notMem [NeZero nA] (env : Env nS nA) (γ : ℚ) :
    ∀ (L : List (Fin nS)) (V : Fin nS → ℚ) (δ : ℚ) (s : Fin nS), s ∉ L →
      (sweepAux env γ L (V, δ)).1 s = V s := by
  intro L
  induction L with
  | nil => intro V δ s _; rfl
  | cons t rest ih =>
    intro V δ s hs
    have hst : s ≠ t := fun hc => hs (hc ▸ List.mem_cons_self t rest)
    have hsr : s ∉ rest := fun hc => hs (List.mem_cons_of_mem t hc)
    show (sweepAux env γ rest (Function.update V t (bestVal env γ V t), _)).1 s = V s
    rw [ih _ _ s hsr, Function.update_noteq hst]

theorem sweepAux_le_snd [NeZero nA] (env : Env nS nA) (γ : ℚ) :
    ∀ (L : List (Fin nS)) (V : Fin nS → ℚ) (δ : ℚ), δ ≤ (sweepAux env γ L (V, δ)).2 := by
  intro L
  induction L with
  | nil => intro V δ; exact le_refl δ
  | cons t rest ih =>
    intro V δ
    exact le_trans (le_max_left _ _) (ih _ _)

theorem sweepAux_abs_le_snd [NeZero nA] (env : Env nS nA) (γ : ℚ) :
    ∀ (L : List (Fin nS)), L.Nodup → ∀ (V : Fin nS → ℚ) (δ : ℚ), ∀ s ∈ L,
      |(sweepAux env γ L (V, δ)).1 s - V s| ≤ (sweepAux env γ L (V, δ)).2 := by
  intro L
  induction L with
  | nil => intro _ V δ s hs; cases hs
  | cons t rest ih =>
    intro hnd V δ s hs
    have htr : t ∉ rest := (List.nodup_cons.mp hnd).1
    rcases List.mem_cons.mp hs with rfl | hsr
    · show |(sweepAux env γ rest (Function.update V s (bestVal env γ V s), _)).1 s - V s| ≤ _
      rw [sweepAux_fst_of_notMem env γ rest _ _ s htr, Function.update_same]
      exact le_trans (le_max_right _ _) (sweepAux_le_snd env γ rest _ _)
    · have hst : s ≠ t := fun hc => htr (hc ▸ hsr)
      show |(sweepAux env γ rest (Function.update V t (bestVal env γ V t), _)).1 s - V s| ≤ _
      rw [show V s = Function.update V t (bestVal env γ V t) s from
        (Function.update_noteq hst _ _).symm]
      exact ih (List.nodup_cons.mp hnd).2 _ _ s hsr

theorem sweepAux_snd_le_of [NeZero nA] (env : Env nS nA) (γ : ℚ) :
    ∀ (L : List (Fin nS)), L.Nodup → ∀ (V : Fin nS → ℚ) (δ : ℚ) (c : ℚ), δ ≤ c →
      (∀ s ∈ L, |(sweepAux env γ L (V, δ)).1 s - V s| ≤ c) →
      (sweepAux env γ L (V, δ)).2 ≤ c := by
  intro L
  induction L with
  | nil => intro _ V δ c hδ _; exact hδ
  | cons t rest ih =>
    intro hnd V δ c hδ habs
    have htr : t ∉ rest := (List.nodup_cons.mp hnd).1
    show (sweepAux env γ rest (Function.update V t (bestVal env γ V t), _)).2 ≤ c
    refine ih (List.nodup_cons.mp hnd).2 _ _ c (max_le hδ ?_) ?_
    · have h1 := habs t (List.mem_cons_self t rest)
      rw [show (sweepAux env γ (t :: rest) (V, δ)).1 t =
          Function.update V t (bestVal env γ V t) t from
            sweepAux_fst_of_notMem env γ rest _ _ t htr, Function.update_same] at h1
      exact h1
    · intro s hsr
      have hst : s ≠ t := fun hc => htr (hc ▸ hsr)
      have h1 := habs s (List.mem_cons_of_mem t hsr)
      rw [show V s = Function.update V t (bestVal env γ V t) s from
        (Function.update_noteq hst _ _).symm] at h1
      exact h1

theorem list_sum_map_sub {α : Type} (l : List α) (f g : α → ℚ) :
    (l.map f).sum - (l.map g).sum = (l.map fun t => f t - g t).sum := by
  induction l with
  | nil => simp
  | cons t rest ih =>
    simp only [List.map_cons, List.sum_cons]
    rw [← ih]
    ring

theorem list_abs_sum_le {α : Type} (l : List α) (f : α → ℚ) :
    |(l.map f).sum| ≤ (l.map fun t => |f t|).sum := by
  induction l with
  | nil => simp
  | cons t rest ih =>
    simp only [List.map_cons, List.sum_cons]
    exact le_trans (abs_add _ _) (by linarith)

theorem lookahead_contraction [NeZero nA] (env : Env nS nA) (γ : ℚ) (hmdp : IsMDP env)
    (hγ0 : 0 ≤ γ) (U W : Fin nS → ℚ) (c : ℚ) (hUW : ∀ i, |U i - W i| ≤ c)
    (s : Fin nS) (a : Fin nA) :
    |lookahead env γ U s a - lookahead env γ W s a| ≤ γ * c := by
  unfold lookahead
  rw [list_sum_map_sub]
  have hpt : ∀ t : ℚ × Fin nS × ℚ × Bool,
      t.1 * (t.2.2.1 + γ * U t.2.1) - t.1 * (t.2.2.1 + γ * W t.2.1)
        = t.1 * (γ * (U t.2.1 - W t.2.1)) := fun t => by ring
  refine le_trans (list_abs_sum_le _ _) ?_
  have hb : ∀ t ∈ env.P s a,
      |t.1 * (t.2.2.1 + γ * U t.2.1) - t.1 * (t.2.2.1 + γ * W t.2.1)|
        ≤ t.1 * (γ * c) := by
    intro t ht
    rw [hpt t, abs_mul, abs_mul,
      abs_of_nonneg ((hmdp s a).1 t ht), abs_of_nonneg hγ0]
    exact mul_le_mul_of_nonneg_left
      (mul_le_mul_of_nonneg_left (hUW t.2.1) hγ0) ((hmdp s a).1 t ht)
  refine le_trans (List.sum_le_sum hb) ?_
  rw [show (fun t : ℚ × Fin nS × ℚ × Bool => t.1 * (γ * c)) = fun t => t.1 * (γ * c) from rfl,
    List.sum_map_mul_right, (hmdp s a).2, one_mul]

theorem bestVal_contraction [NeZero nA] (env : Env nS nA) (γ : ℚ) (hmdp : IsMDP env)
    (hγ0 : 0 ≤ γ) (U W : Fin nS → ℚ) (c : ℚ) (hUW : ∀ i, |U i - W i| ≤ c) (s : Fin nS) :
    |bestVal env γ U s - bestVal env γ W s| ≤ γ * c := by
  rw [abs_sub_le_iff]
  constructor
  · rw [sub_le_iff_le_add]
    refine Finset.sup'_le _ _ fun a _ => ?_
    have h1 := (abs_sub_le_iff.mp (lookahead_contraction env γ hmdp hγ0 U W c hUW s a)).1
    have h2 : lookahead env γ W s a ≤ bestVal env γ W s :=
      Finset.le_sup' _ (Finset.mem_univ a)
    linarith
  · rw [sub_le_iff_le_add]
    refine Finset.sup'_le _ _ fun a _ => ?_
    have h1 := (abs_sub_le_iff.mp (lookahead_contraction env γ hmdp hγ0 U W c hUW s a)).2
    have h2 : lookahead env γ U s a ≤ bestVal env γ U s :=
      Finset.le_sup' _ (Finset.mem_univ a)
    linarith

theorem sweepAux_contraction [NeZero nA] (env : Env nS nA) (γ : ℚ) (hmdp : IsMDP env)
    (hγ0 : 0 ≤ γ) (hγ1 : γ ≤ 1) (c : ℚ) (hc : 0 ≤ c) :
    ∀ (L : List (Fin nS)) (VU VW : Fin nS → ℚ) (δU δW : ℚ),
      (∀ i, |VU i - VW i| ≤ c) →
      (∀ i, |(sweepAux env γ L (VU, δU)).1 i - (sweepAux env γ L (VW, δW)).1 i| ≤ c) ∧
      (∀ s ∈ L, |(sweepAux env γ L (VU, δU)).1 s - (sweepAux env γ L (VW, δW)).1 s|
        ≤ γ * c) := by
  intro L
  induction L with
  | nil =>
    intro VU VW δU δW hUW
    exact ⟨hUW, fun s hs => absurd hs (List.not_mem_nil s)⟩
  | cons t rest ih =>
    intro VU VW δU δW hUW
    have hbt : |bestVal env γ VU t - bestVal env γ VW t| ≤ γ * c :=
      bestVal_contraction env γ hmdp hγ0 VU VW c hUW t
    have hγc : γ * c ≤ c := by
      calc γ * c ≤ 1 * c := mul_le_mul_of_nonneg_right hγ1 hc
        _ = c := one_mul c
    have hUW' : ∀ i, |Function.update VU t (bestVal env γ VU t) i -
        Function.update VW t (bestVal env γ VW t) i| ≤ c := by
      intro i
      by_cases hit : i = t
      · subst hit
        rw [Function.update_same, Function.update_same]
        exact le_trans hbt hγc
      · rw [Function.update_noteq hit, Function.update_noteq hit]
        exact hUW i
    obtain ⟨hall, hmem⟩ := ih (Function.update VU t (bestVal env γ VU t))
      (Function.update VW t (bestVal env γ VW t))
      (max δU |bestVal env γ VU t - VU t|) (max δW |bestVal env γ VW t - VW t|) hUW'
    refine ⟨hall, ?_⟩
    intro s hs
    rcases List.mem_cons.mp hs with rfl | hsr
    · by_cases hsrest : s ∈ rest
      · exact hmem s hsrest
      · show |(sweepAux env γ rest (Function.update VU s (bestVal env γ VU s), _)).1 s -
            (sweepAux env γ rest (Function.update VW s (bestVal env γ VW s), _)).1 s| ≤ γ * c
        rw [sweepAux_fst_of_notMem env γ rest _ _ s hsrest,
          sweepAux_fst_of_notMem env γ rest _ _ s hsrest,
          Function.update_same, Function.update_same]
        exact hbt
    · exact hmem s hsr

theorem sweepAll_delta_shrinks [NeZero nA] (env : Env nS nA) (γ : ℚ) (hmdp : IsMDP env)
    (hγ0 : 0 ≤ γ) (hγ1 : γ ≤ 1) (V : Fin nS → ℚ) :
    (sweepAll env γ (sweepAll env γ V).1).2 ≤ γ * (sweepAll env γ V).2 := by
  have hc : 0 ≤ (sweepAll env γ V).2 := sweepAux_le_snd env γ _ V 0
  have hpt : ∀ i, |(sweepAll env γ V).1 i - V i| ≤ (sweepAll env γ V).2 := fun i =>
    sweepAux_abs_le_snd env γ _ (List.nodup_finRange nS) V 0 i (List.mem_finRange i)
  obtain ⟨_, hmem⟩ := sweepAux_contraction env γ hmdp hγ0 hγ1 _ hc
    (List.finRange nS) (sweepAll env γ V).1 V 0 0 hpt
  refine sweepAux_snd_le_of env γ _ (List.nodup_finRange nS) _ 0 _
    (mul_nonneg hγ0 hc) fun s _ => ?_
  exact hmem s (List.mem_finRange s)

theorem iterSweep_delta_le [NeZero nA] (env : Env nS nA) (γ : ℚ) (hmdp : IsMDP env)
    (hγ0 : 0 ≤ γ) (hγ1 : γ ≤ 1) (V : Fin nS → ℚ) (m : ℕ) :
    (sweepAll env γ (iterSweep env γ m V)).2 ≤ γ ^ m * (sweepAll env γ V).2 := by
  induction m with
  | zero =>
    rw [pow_zero, one_mul]
    exact le_refl _
  | succ k ih =>
    have h1 : (sweepAll env γ (iterSweep env γ (k + 1) V)).2 ≤
        γ * (sweepAll env γ (iterSweep env γ k V)).2 :=
      sweepAll_delta_shrinks env γ hmdp hγ0 hγ1 (iterSweep env γ k V)
    calc (sweepAll env γ (iterSweep env γ (k + 1) V)).2
        ≤ γ * (sweepAll env γ (iterSweep env γ k V)).2 := h1
      _ ≤ γ * (γ ^ k * (sweepAll env γ V).2) := mul_le_mul_of_nonneg_left ih hγ0
      _ = γ ^ (k + 1) * (sweepAll env γ V).2 := by ring

theorem iterSweep_shift [NeZero nA] (env : Env nS nA) (γ : ℚ) (V : Fin nS → ℚ) (k : ℕ) :
    iterSweep env γ k (sweepAll env γ V).1 = iterSweep env γ (k + 1) V := by
  induction k with
  | zero => rfl
  | succ m ih =>
    show (sweepAll env γ (iterSweep env γ m (sweepAll env γ V).1)).1 = _
    rw [ih]
    rfl

theorem valueIterLoop_exits [NeZero nA] (env : Env nS nA) (θ γ : ℚ) :
    ∀ (m : ℕ) (V : Fin nS → ℚ),
      (∀ k < m, ¬ (sweepAll env γ (iterSweep env γ k V)).2 < θ) →
      (sweepAll env γ (iterSweep env γ m V)).2 < θ →
      valueIterLoop env θ γ (m + 1) V = some (iterSweep env γ (m + 1) V) := by
  intro m
  induction m with
  | zero =>
    intro V _ hd
    have hd' : (sweepAll env γ V).2 < θ := hd
    show (if (sweepAll env γ V).2 < θ then some (sweepAll env γ V).1
      else valueIterLoop env θ γ 0 (sweepAll env γ V).1) = _
    rw [if_pos hd']
    rfl
  | succ k ih =>
    intro V hmin hd
    show (if (sweepAll env γ V).2 < θ then some (sweepAll env γ V).1
      else valueIterLoop env θ γ (k + 1) (sweepAll env γ V).1) = _
    have h0 : ¬ (sweepAll env γ V).2 < θ := hmin 0 (Nat.succ_pos k)
    rw [if_neg h0]
    have h1 : ∀ j < k, ¬ (sweepAll env γ (iterSweep env γ j (sweepAll env γ V).1)).2 < θ := by
      intro j hj
      rw [iterSweep_shift]
      exact hmin (j + 1) (by omega)
    have h2 : (sweepAll env γ (iterSweep env γ k (sweepAll env γ V).1)).2 < θ := by
      rw [iterSweep_shift]
      exact hd
    rw [ih (sweepAll env γ V).1 h1 h2, iterSweep_shift]

theorem minV_le [NeZero n] (v : Fin n → ℚ) (i : Fin n) : minV v ≤ v i :=
  Finset.inf'_le _ (Finset.mem_univ i)

theorem le_maxV [NeZero n] (v : Fin n → ℚ) (i : Fin n) : v i ≤ maxV v :=
  Finset.le_sup' _ (Finset.mem_univ i)

theorem le_minV [NeZero n] (v : Fin n → ℚ) (c : ℚ) (h : ∀ i, c ≤ v i) : c ≤ minV v :=
  Finset.le_inf' _ _ fun i _ => h i

theorem maxV_le [NeZero n] (v : Fin n → ℚ) (c : ℚ) (h : ∀ i, v i ≤ c) : maxV v ≤ c :=
  Finset.sup'_le _ _ fun i _ => h i

theorem exists_minV [NeZero n] (v : Fin n → ℚ) : ∃ i, minV v = v i := by
  obtain ⟨i, _, hi⟩ := Finset.exists_mem_eq_inf' (Finset.univ_nonempty (α := Fin n)) v
  exact ⟨i, hi⟩

theorem exists_maxV [NeZero n] (v : Fin n → ℚ) : ∃ i, maxV v = v i := by
  obtain ⟨i, _, hi⟩ := Finset.exists_mem_eq_sup' (Finset.univ_nonempty (α := Fin n)) v
  exact ⟨i, hi⟩

theorem minV_lt_maxV [NeZero n] (v : Fin n → ℚ) (hv : ∃ i j, v i ≠ v j) :
    minV v < maxV v := by
  obtain ⟨i, j, hij⟩ := hv
  rcases lt_or_eq_of_le ((minV_le v i).trans (le_maxV v i)) with h | h
  · exact h
  · refine absurd ?_ hij
    have hi := le_antisymm ((le_maxV v i).trans_eq h.symm) (minV_le v i)
    have hj := le_antisymm ((le_maxV v j).trans_eq h.symm) (minV_le v j)
    rw [hi, hj]

/-! ### Claim theorems -/

/-- Claim C3: for every non-constant input reward vector `v` and `r_max > 0`, the
normalization applied to the solved reward block computes
`(v - min v) / (max v - min v) * r_max`, and the result has minimum exactly 0,
maximum exactly `r_max`, and every entry in `[0, r_max]`.  The expression
`normalise v i * rmax` is exactly the source's `normalise(rewards) * r_max`. -/
theorem claim3_normalisation_bounds [NeZero n] (v : Fin n → ℚ) (rmax : ℚ)
    (hv : ∃ i j, v i ≠ v j) (hr : 0 < rmax) :
    (∀ i, normalise v i * rmax = (v i - minV v) / (maxV v - minV v) * rmax) ∧
    minV (fun i => normalise v i * rmax) = 0 ∧
    maxV (fun i => normalise v i * rmax) = rmax ∧
    ∀ i, 0 ≤ normalise v i * rmax ∧ normalise v i * rmax ≤ rmax := by
  have hD : 0 < maxV v - minV v := sub_pos.mpr (minV_lt_maxV v hv)
  have hnn : ∀ i, 0 ≤ normalise v i * rmax := by
    intro i
    exact mul_nonneg (div_nonneg (sub_nonneg.mpr (minV_le v i)) hD.le) hr.le
  have hub : ∀ i, normalise v i * rmax ≤ rmax := by
    intro i
    refine mul_le_of_le_one_left hr.le ?_
    exact (div_le_one hD).mpr (sub_le_sub_right (le_maxV v i) _)
  refine ⟨fun i => rfl, ?_, ?_, fun i => ⟨hnn i, hub i⟩⟩
  · obtain ⟨k, hk⟩ := exists_minV v
    have hk0 : normalise v k * rmax = 0 := by
      unfold normalise
      rw [← hk, sub_self, zero_div, zero_mul]
    exact le_antisymm (le_of_le_of_eq (minV_le (fun i => normalise v i * rmax) k) hk0)
      (le_minV _ _ hnn)
  · obtain ⟨k, hk⟩ := exists_maxV v
    have hk1 : normalise v k * rmax = rmax := by
      unfold normalise
      rw [← hk, div_self (ne_of_gt hD), one_mul]
    exact le_antisymm (maxV_le _ _ hub)
      (le_of_eq_of_le hk1.symm (le_maxV (fun i => normalise v i * rmax) k))

/-- Witness for C3 at the concrete non-constant vector `(0, 1)` and `r_max = 2`. -/
theorem claim3_normalisation_bounds_witness :
    ((∃ i j, (![0, 1] : Fin 2 → ℚ) i ≠ ![0, 1] j) ∧ (0:ℚ) < 2) ∧
    ((∀ i, normalise (![0, 1] : Fin 2 → ℚ) i * 2 =
        (![0, 1] i - minV ![0, 1]) / (maxV ![0, 1] - minV ![0, 1]) * 2) ∧
      minV (fun i => normalise (![0, 1] : Fin 2 → ℚ) i * 2) = 0 ∧
      maxV (fun i => normalise (![0, 1] : Fin 2 → ℚ) i * 2) = 2 ∧
      ∀ i, 0 ≤ normalise (![0, 1] : Fin 2 → ℚ) i * 2 ∧
        normalise (![0, 1] : Fin 2 → ℚ) i * 2 ≤ 2) :=
  ⟨⟨⟨0, 1, by norm_num⟩, by norm_num⟩,
    claim3_normalisation_bounds ![0, 1] 2 ⟨0, 1, by norm_num⟩ (by norm_num)⟩

/-- Claim C4, counterexample: on the constant vector `(3, 3)` the source's
`normalise` does not fail: it runs the division by zero and returns a vector
(in exact arithmetic the zero vector; in numpy, NaN entries with only a
runtime warning).  No `DegenerateRewardError` is raised — none exists in the
code. -/
theorem claim4_counterexample : normalise (fun _ : Fin 2 => (3:ℚ)) = fun _ => 0 := by
  with_unfolding_all decide

/-- Claim C4, amended: on every input vector whose entries are all equal
(`max == min`), `normalise` returns a value rather than raising: the division
by zero yields the zero vector in the exact-arithmetic model (NaN entries in
numpy floats).  No `DegenerateRewardError` exists in the code. -/
theorem claim4_normalise_constant_returns (m : ℕ) (v : Fin (m + 1) → ℚ)
    (hv : ∀ i j, v i = v j) : normalise v = fun _ => 0 := by
  funext i
  obtain ⟨k, hk⟩ := exists_minV v
  unfold normalise
  rw [show v i - minV v = 0 from by rw [hk, hv i k, sub_self], zero_div]

/-- Witness for the amended C4 at the constant vector `(3, 3)`. -/
theorem claim4_normalise_constant_returns_witness :
    (∀ i j : Fin 2, (fun _ => (3:ℚ)) i = (fun _ => (3:ℚ)) j) ∧
    normalise (fun _ : Fin 2 => (3:ℚ)) = fun _ => 0 :=
  ⟨fun _ _ => rfl, claim4_normalise_constant_returns 1 (fun _ => 3) fun _ _ => rfl⟩

/-- Claim C1: evaluation at the failing input `nS = 1`, `nA = 2` (rows 4 and 5
of the LP).  The source writes coefficient `+1` at column `i` in BOTH
slack-linking blocks (lines 109 and 113 are identical), so the two emitted
rows are both `R_0 - z_0 ≤ 0`: row 5 equals row 4, its coefficient on `R_0`
is `+1` and not the `-1` that the claimed row `-R_0 - z_0 ≤ 0` requires. -/
theorem claim1_slack_row_duplicated :
    (∀ j < 3, Amat Pc polc (1/2) 4 j = Amat Pc polc (1/2) 5 j) ∧
    Amat Pc polc (1/2) 5 0 = 1 ∧ Amat Pc polc (1/2) 5 0 ≠ -1 := by
  refine ⟨?_, ?_, ?_⟩ <;> with_unfolding_all decide

/-- Claim C6, counterexample: called with discount factor `γ = 1 ≥ 1` on the
zero-reward one-state environment, `value_iteration` runs to completion and
returns normally (policy `[[1]]`, `V = [0]`) instead of failing: no
`ConfigurationError` is raised (no such validation exists in the code). -/
theorem claim6_counterexample :
    value_iteration env1 (1/1000) 1 1 = some (fun _ _ => 1, fun _ => 0) := by
  refine (eq_some_getD _ (fun _ _ => 37, fun _ => 37)
    (by with_unfolding_all decide)).trans (congrArg some ?_)
  refine Prod.ext ?_ ?_
  · funext s a
    fin_cases s; fin_cases a
    with_unfolding_all decide
  · funext s
    fin_cases s
    with_unfolding_all decide

/-- Claim C6, amended: `value_iteration` performs no validation of the discount
factor.  Called with any `γ` (including `γ ≥ 1`) on an environment whose
rewards are all zero, it simply runs and terminates after one sweep with the
zero value function — rather than failing with a `ConfigurationError` (which
does not exist in the code); on other environments with `γ ≥ 1` it may loop
forever. -/
theorem claim6_no_gamma_validation [NeZero nA] (env : Env nS nA) (θ γ : ℚ)
    (hz : ∀ s a, ∀ t ∈ env.P s a, t.2.2.1 = 0) (hθ : 0 < θ) :
    value_iteration env θ γ 1 = some (policyOf env γ (fun _ => 0), fun _ => 0) := by
  unfold value_iteration valueIterLoop sweepAll
  rw [sweepAux_zeroV env γ hz (List.finRange nS)]
  simp [hθ]

/-- Witness for the amended C6 at `env1` with `γ = 3/2 ≥ 1` and `θ = 1/1000`. -/
theorem claim6_no_gamma_validation_witness :
    ((∀ s a, ∀ t ∈ env1.P s a, t.2.2.1 = 0) ∧ (0:ℚ) < 1/1000 ∧ (1:ℚ) ≤ 3/2) ∧
    value_iteration env1 (1/1000) (3/2) 1 =
      some (policyOf env1 (3/2) (fun _ => 0), fun _ => 0) :=
  ⟨⟨by with_unfolding_all decide, by norm_num, by norm_num⟩,
    claim6_no_gamma_validation env1 (1/1000) (3/2)
      (by with_unfolding_all decide) (by norm_num)⟩

/-- Claim C7, counterexample: when the external solver reports infeasibility
(`sol['x'] = None`), `linear_irl` fails with the `TypeError` from subscripting
`None`, which is an unrelated error and in particular not `IRLInfeasibleError`. -/
theorem claim7_counterexample :
    linear_irl Pc polc (1/2) 10 1 noneSolver = .error .typeError ∧
    (Except.error (α := Fin 1 → ℚ) IRLError.typeError ≠ .error .irlInfeasible) :=
  ⟨rfl, fun h => IRLError.noConfusion (Except.error.inj h)⟩

/-- Claim C7, amended: if the external solver reports infeasibility instead of
returning an optimal vector, `linear_irl` fails — but with the `TypeError`
raised by `sol['x'][:nS]` subscripting `None`, not with an
`IRLInfeasibleError` (which does not exist in the code). -/
theorem claim7_infeasible_gives_typeerror [NeZero nS] [NeZero nA]
    (P : Fin nS → Fin nS → Fin nA → ℚ) (policy : Fin nS → Fin nA → ℚ)
    (γ l1 rmax : ℚ) (solver : Solver)
    (h : solver (cvec nS l1) (Amat P policy γ) (bvec nS nA rmax) = none) :
    linear_irl P policy γ l1 rmax solver = .error .typeError := by
  unfold linear_irl
  rw [h]

/-- Witness for the amended C7 with the always-infeasible solver. -/
theorem claim7_infeasible_gives_typeerror_witness :
    noneSolver (cvec 1 10) (Amat Pc polc (1/2)) (bvec 1 2 1) = none ∧
    linear_irl Pc polc (1/2) 10 1 noneSolver = .error .typeError :=
  ⟨rfl, claim7_infeasible_gives_typeerror Pc polc (1/2) 10 1 noneSolver rfl⟩

/-- Claim C10: the target policy influences the LP, and hence the recovered
reward, only through the per-row first argmax `a_opt = np.argmax(policy[i])`:
two policies with the same per-row argmax yield the identical inequality
matrix (the vectors `b`, `c` do not mention the policy at all) and the same
result of `linear_irl` for every transition tensor, `γ`, `l1`, `r_max` and
every (deterministic) external solver. -/
theorem claim10_policy_enters_via_argmax [NeZero nS] [NeZero nA]
    (P : Fin nS → Fin nS → Fin nA → ℚ) (γ l1 rmax : ℚ) (solver : Solver)
    (pol1 pol2 : Fin nS → Fin nA → ℚ)
    (h : ∀ i, aOpt pol1 i = aOpt pol2 i) :
    (∀ r j, Amat P pol1 γ r j = Amat P pol2 γ r j) ∧
    linear_irl P pol1 γ l1 rmax solver = linear_irl P pol2 γ l1 rmax solver := by
  have hA : Amat P pol1 γ = Amat P pol2 γ := by
    unfold Amat
    rw [funext h]
  refine ⟨fun r j => by rw [hA], ?_⟩
  unfold linear_irl
  rw [hA]

/-- Witness for C10: `polc` (deterministic) and `polc'` (non-deterministic)
differ as matrices but share the per-row argmax (action 0). -/
theorem claim10_policy_enters_via_argmax_witness :
    (∀ i, aOpt polc i = aOpt polc' i) ∧
    ((∀ r j, Amat Pc polc (1/2) r j = Amat Pc polc' (1/2) r j) ∧
      linear_irl Pc polc (1/2) 10 1 mockSolver =
        linear_irl Pc polc' (1/2) 10 1 mockSolver) :=
  ⟨by with_unfolding_all decide,
    claim10_policy_enters_via_argmax Pc (1/2) 10 1 mockSolver polc polc'
      (by with_unfolding_all decide)⟩

/-- Claim C9: whenever `value_iteration` returns `(policy, V)`, each policy row
`policy[s]` is deterministic and row-stochastic: it is 1 at
`np.argmax(lookahead(s, V))`, 0 at every other action, sums to 1, and the
argmax index is a maximizer of the final one-step lookahead that is
less-or-equal every other maximizer (ties broken by lowest action index). -/
theorem claim9_policy_deterministic [NeZero nA] (env : Env nS nA) (θ γ : ℚ) (fuel : ℕ)
    (pol : Fin nS → Fin nA → ℚ) (V : Fin nS → ℚ)
    (h : value_iteration env θ γ fuel = some (pol, V)) (s : Fin nS) :
    pol s (npArgmax (lookahead env γ V s)) = 1 ∧
    (∀ a, a ≠ npArgmax (lookahead env γ V s) → pol s a = 0) ∧
    (∑ a : Fin nA, pol s a) = 1 ∧
    (∀ a, lookahead env γ V s a ≤ lookahead env γ V s (npArgmax (lookahead env γ V s))) ∧
    (∀ a, lookahead env γ V s (npArgmax (lookahead env γ V s)) ≤ lookahead env γ V s a →
      npArgmax (lookahead env γ V s) ≤ a) := by
  unfold value_iteration at h
  obtain ⟨V', hl, hpv⟩ := Option.map_eq_some'.mp h
  injection hpv with h1 h2
  subst pol
  subst V'
  refine ⟨?_, ?_, ?_, fun a => npArgmax_le _ a, fun a => npArgmax_first _ a⟩
  · unfold policyOf
    rw [if_pos rfl]
  · intro a ha
    unfold policyOf
    rw [if_neg ha]
  · unfold policyOf
    rw [Finset.sum_ite_eq' Finset.univ (npArgmax (lookahead env γ V s)) fun _ => (1:ℚ)]
    exact if_pos (Finset.mem_univ _)

/-- Witness for C9 on `env1` with `θ = 1/1000`, `γ = 1/2`, fuel 1, at state 0. -/
theorem claim9_policy_deterministic_witness :
    value_iteration env1 (1/1000) (1/2) 1 = some (fun _ _ => 1, fun _ => 0) ∧
    ((fun (_ : Fin 1) (_ : Fin 1) => (1:ℚ)) 0
        (npArgmax (lookahead env1 (1/2) (fun _ => 0) 0)) = 1 ∧
      (∀ a, a ≠ npArgmax (lookahead env1 (1/2) (fun _ => 0) 0) →
        (fun (_ : Fin 1) (_ : Fin 1) => (1:ℚ)) 0 a = 0) ∧
      (∑ a : Fin 1, (fun (_ : Fin 1) (_ : Fin 1) => (1:ℚ)) 0 a) = 1 ∧
      (∀ a, lookahead env1 (1/2) (fun _ => 0) 0 a ≤
        lookahead env1 (1/2) (fun _ => 0) 0 (npArgmax (lookahead env1 (1/2) (fun _ => 0) 0))) ∧
      (∀ a, lookahead env1 (1/2) (fun _ => 0) 0
          (npArgmax (lookahead env1 (1/2) (fun _ => 0) 0)) ≤
            lookahead env1 (1/2) (fun _ => 0) 0 a →
        npArgmax (lookahead env1 (1/2) (fun _ => 0) 0) ≤ a)) := by
  have hEval : value_iteration env1 (1/1000) (1/2) 1 = some (fun _ _ => 1, fun _ => 0) := by
    refine (eq_some_getD _ (fun _ _ => 37, fun _ => 37)
      (by with_unfolding_all decide)).trans (congrArg some ?_)
    refine Prod.ext ?_ ?_
    · funext s a
      fin_cases s; fin_cases a
      with_unfolding_all decide
    · funext s
      fin_cases s
      with_unfolding_all decide
  exact ⟨hEval, claim9_policy_deterministic env1 (1/1000) (1/2) 1 _ _ hEval 0⟩

/-- Claim C5: evaluation at a failing input.  On `env2` (2 states, zero
rewards, every move enters state 1) with the mock solver returning the LP
point with reward block `(0, 1)`, the orchestrator returns
recovered reward `(0, 5)` (after normalisation and scaling by `r_max = 5`)
but `recovered_values = (0, 0)` — identical to the original environment's
value function, because line 138 reruns `value_iteration(env)` on the
ORIGINAL environment with the default `γ = 0.9`.  Value iteration under the
recovered reward (environment `env2R`, same default parameters) instead gives
a strictly positive value at state 1, so the returned artifact is not the
value function of the recovered reward. -/
theorem claim5_recovered_values_use_original_env :
    irl env2 (3/10) 10 5 mockSolver 1 =
      some (.ok (fun _ => 0, fun _ => 0, ![0, 5], fun _ => 0)) ∧
    (value_iteration env2R (1/1000) (9/10) 200).isSome = true ∧
    0 < ((value_iteration env2R (1/1000) (9/10) 200).getD (fun _ _ => 0, fun _ => 0)).2 1 := by
  refine ⟨?_, by with_unfolding_all decide, by with_unfolding_all decide⟩
  have h1 : (irl env2 (3/10) 10 5 mockSolver 1).isSome = true := by
    with_unfolding_all decide
  refine (eq_some_getD _ (.error .typeError) h1).trans (congrArg some ?_)
  have h2 : ((irl env2 (3/10) 10 5 mockSolver 1).getD (.error .typeError)).toOption.isSome
      = true := by
    with_unfolding_all decide
  refine (eq_ok_toOption_getD _ (fun _ => 0, fun _ => 0, fun _ => 0, fun _ => 0) h2).trans
    (congrArg Except.ok ?_)
  refine Prod.ext ?_ (Prod.ext ?_ (Prod.ext ?_ ?_)) <;>
    · funext s
      fin_cases s <;> with_unfolding_all decide

/-- Claim C2, amended: for every state `i` with policy-chosen action
`a* = np.argmax(policy[i])` and every action `a ≠ a*`, `linear_irl` emits
exactly two policy-constraint rows over the reward block, both with reward
coefficients `-(P[i,:,a*] - P[i,:,a]) · (I - γ·P[:,:,a*])⁻¹` and right-hand
side 0: the first enforces `(P[i,:,a*] - P[i,:,a]) · M · R ≥ 0`, and the
second additionally carries coefficient 1 on the auxiliary variable `u_i`, so
that `u_i` LOWER-BOUNDS the quantity (`u_i ≤ (P[i,:,a*] - P[i,:,a]) · M · R`
at every feasible point) — not "is lower-bounded by" it, as the claim put it.
In total the policy block consists of exactly the `2·nS·(nA-1)` rows of these
two forms, with the matrix inverse `M` computed once per state (the embedding
`AmatCore` mentions `tmpInv` only through the per-state `qrowCore`). -/
theorem claim2_policy_rows [NeZero nS] [NeZero nA] (P : Fin nS → Fin nS → Fin nA → ℚ)
    (policy : Fin nS → Fin nA → ℚ) (γ rmax : ℚ) (i : Fin nS) (a : Fin nA)
    (h : a ≠ aOpt policy i) :
    (i.val * (nA - 1) + (nonOptCore (aOpt policy) i).indexOf a < nS * (nA - 1)) ∧
    (∀ j : Fin nS,
      Amat P policy γ (i.val * (nA - 1) + (nonOptCore (aOpt policy) i).indexOf a) j.val
        = -qrowCore P (aOpt policy) γ i a j) ∧
    (∀ j, nS ≤ j →
      Amat P policy γ (i.val * (nA - 1) + (nonOptCore (aOpt policy) i).indexOf a) j = 0) ∧
    bvec nS nA rmax (i.val * (nA - 1) + (nonOptCore (aOpt policy) i).indexOf a) = 0 ∧
    (∀ x : ℕ → ℚ,
      rowSat nS (Amat P policy γ) (bvec nS nA rmax) x
          (i.val * (nA - 1) + (nonOptCore (aOpt policy) i).indexOf a) ↔
        0 ≤ ∑ j : Fin nS, qrowCore P (aOpt policy) γ i a j * x j.val) ∧
    (∀ j : Fin nS,
      Amat P policy γ
          (nS * (nA - 1) + (i.val * (nA - 1) + (nonOptCore (aOpt policy) i).indexOf a)) j.val
        = -qrowCore P (aOpt policy) γ i a j) ∧
    Amat P policy γ
        (nS * (nA - 1) + (i.val * (nA - 1) + (nonOptCore (aOpt policy) i).indexOf a))
        (nS + i.val) = 1 ∧
    (∀ j, nS ≤ j → j ≠ nS + i.val →
      Amat P policy γ
          (nS * (nA - 1) + (i.val * (nA - 1) + (nonOptCore (aOpt policy) i).indexOf a)) j
        = 0) ∧
    bvec nS nA rmax
        (nS * (nA - 1) + (i.val * (nA - 1) + (nonOptCore (aOpt policy) i).indexOf a)) = 0 ∧
    (∀ x : ℕ → ℚ,
      rowSat nS (Amat P policy γ) (bvec nS nA rmax) x
          (nS * (nA - 1) + (i.val * (nA - 1) + (nonOptCore (aOpt policy) i).indexOf a)) ↔
        x (nS + i.val) ≤ ∑ j : Fin nS, qrowCore P (aOpt policy) γ i a j * x j.val) ∧
    (∀ r < 2 * nS * (nA - 1), ∃ (i' : Fin nS) (a' : Fin nA), a' ≠ aOpt policy i' ∧
      (r = i'.val * (nA - 1) + (nonOptCore (aOpt policy) i').indexOf a' ∨
       r = nS * (nA - 1) + (i'.val * (nA - 1) + (nonOptCore (aOpt policy) i').indexOf a'))) ∧
    (∀ (i' : Fin nS) (a' : Fin nA), a' ≠ aOpt policy i' →
      i'.val * (nA - 1) + (nonOptCore (aOpt policy) i').indexOf a' =
        i.val * (nA - 1) + (nonOptCore (aOpt policy) i).indexOf a →
      i' = i ∧ a' = a) := by
  have hmem : a ∈ nonOptCore (aOpt policy) i := (mem_nonOptCore _ i a).mpr h
  have hidx := List.indexOf_lt_length.mpr hmem
  have hcnt : (nonOptCore (aOpt policy) i).indexOf a < nA - 1 := by
    rwa [nonOptCore_length] at hidx
  have hr1 : i.val * (nA - 1) + (nonOptCore (aOpt policy) i).indexOf a < nS * (nA - 1) := by
    have h1 : i.val * (nA - 1) + (nonOptCore (aOpt policy) i).indexOf a <
        (i.val + 1) * (nA - 1) := by
      have : (i.val + 1) * (nA - 1) = i.val * (nA - 1) + (nA - 1) := by ring
      omega
    exact lt_of_lt_of_le h1 (Nat.mul_le_mul_right _ i.isLt)
  have htwo : 2 * nS * (nA - 1) = nS * (nA - 1) + nS * (nA - 1) := by ring
  have hA1 : ∀ j, Amat P policy γ (i.val * (nA - 1) + (nonOptCore (aOpt policy) i).indexOf a) j
      = if hj : j < nS then -qrowCore P (aOpt policy) γ i a ⟨j, hj⟩ else 0 :=
    fun j => AmatCore_polRow1 P (aOpt policy) γ i a h j
  have hA2 : ∀ j, Amat P policy γ
      (nS * (nA - 1) + (i.val * (nA - 1) + (nonOptCore (aOpt policy) i).indexOf a)) j
      = if hj : j < nS then -qrowCore P (aOpt policy) γ i a ⟨j, hj⟩
        else if j = nS + i.val then 1 else 0 :=
    fun j => AmatCore_polRow2 P (aOpt policy) γ i a h j
  have hb1 : bvec nS nA rmax (i.val * (nA - 1) + (nonOptCore (aOpt policy) i).indexOf a)
      = 0 := by
    unfold bvec
    rw [if_neg]
    intro hc
    omega
  have hb2 : bvec nS nA rmax
      (nS * (nA - 1) + (i.val * (nA - 1) + (nonOptCore (aOpt policy) i).indexOf a)) = 0 := by
    unfold bvec
    rw [if_neg]
    intro hc
    omega
  have hsum1 : ∀ x : ℕ → ℚ,
      ∑ j ∈ Finset.range (3 * nS),
        Amat P policy γ (i.val * (nA - 1) + (nonOptCore (aOpt policy) i).indexOf a) j * x j
      = -∑ j : Fin nS, qrowCore P (aOpt policy) γ i a j * x j.val := by
    intro x
    rw [Finset.sum_congr rfl fun j _ => by rw [hA1 j]]
    rw [sum_dite_reward nS (fun j => -qrowCore P (aOpt policy) γ i a j) x]
    rw [← Finset.sum_neg_distrib]
    exact Finset.sum_congr rfl fun j _ => by ring
  have hsum2 : ∀ x : ℕ → ℚ,
      ∑ j ∈ Finset.range (3 * nS),
        Amat P policy γ
          (nS * (nA - 1) + (i.val * (nA - 1) + (nonOptCore (aOpt policy) i).indexOf a)) j * x j
      = (-∑ j : Fin nS, qrowCore P (aOpt policy) γ i a j * x j.val) + x (nS + i.val) := by
    intro x
    rw [Finset.sum_congr rfl fun j _ => by
      rw [hA2 j, polRow2_entry_split nS (qrowCore P (aOpt policy) γ i a) i.val x j]]
    rw [Finset.sum_add_distrib]
    congr 1
    · rw [sum_dite_reward nS (fun j => -qrowCore P (aOpt policy) γ i a j) x,
        ← Finset.sum_neg_distrib]
      exact Finset.sum_congr rfl fun j _ => by ring
    · rw [Finset.sum_ite_eq' (Finset.range (3 * nS)) (nS + i.val) x]
      rw [if_pos]
      have h3 : 3 * nS = nS + nS + nS := by ring
      have := i.isLt
      simp only [Finset.mem_range]
      omega
  refine ⟨hr1, fun j => by rw [hA1 j.val, dif_pos j.isLt], fun j hj => by
      rw [hA1 j, dif_neg (by omega)], hb1, ?_,
    fun j => by rw [hA2 j.val, dif_pos j.isLt], by
      rw [hA2 (nS + i.val), dif_neg (by omega), if_pos rfl], fun j hj hj' => by
      rw [hA2 j, dif_neg (by omega), if_neg hj'], hb2, ?_, polRows_cover (aOpt policy), ?_⟩
  · intro x
    unfold rowSat
    rw [hsum1 x, hb1]
    constructor
    · intro hx
      have := neg_nonpos.mp hx
      linarith
    · intro hx
      have : (0:ℚ) ≤ ∑ j : Fin nS, qrowCore P (aOpt policy) γ i a j * x j.val := hx
      linarith
  · intro x
    unfold rowSat
    rw [hsum2 x, hb2]
    constructor <;> intro hx <;> linarith
  · intro i' a' h' heq
    have hmem' : a' ∈ nonOptCore (aOpt policy) i' := (mem_nonOptCore _ i' a').mpr h'
    have hidx' := List.indexOf_lt_length.mpr hmem'
    have hcnt' : (nonOptCore (aOpt policy) i').indexOf a' < nA - 1 := by
      rwa [nonOptCore_length] at hidx'
    have hpos : 0 < nA - 1 := lt_of_le_of_lt (Nat.zero_le _) hcnt
    have hdiv : (i.val * (nA - 1) + (nonOptCore (aOpt policy) i).indexOf a) / (nA - 1)
        = i.val := by
      rw [Nat.mul_comm i.val, Nat.mul_add_div hpos, Nat.div_eq_of_lt hcnt, Nat.add_zero]
    have hdiv' : (i'.val * (nA - 1) + (nonOptCore (aOpt policy) i').indexOf a') / (nA - 1)
        = i'.val := by
      rw [Nat.mul_comm i'.val, Nat.mul_add_div hpos, Nat.div_eq_of_lt hcnt', Nat.add_zero]
    rw [heq] at hdiv'
    have hii : i' = i := Fin.ext (hdiv'.symm.trans hdiv)
    subst hii
    have hcnteq : (nonOptCore (aOpt policy) i').indexOf a' =
        (nonOptCore (aOpt policy) i').indexOf a := by omega
    have h1 := List.getElem_indexOf hidx'
    have h2 := List.getElem_indexOf hidx
    simp only [hcnteq] at h1
    exact ⟨rfl, h1.symm.trans h2⟩

/-- Witness for the amended C2 at `nS = 1`, `nA = 2`, `P = Pc`,
`policy = polc`, `γ = 1/2`, `r_max = 1`, state 0, non-optimal action 1. -/
theorem claim2_policy_rows_witness :
    ((1 : Fin 2) ≠ aOpt polc 0) ∧
    (((0 : Fin 1).val * (2 - 1) + (nonOptCore (aOpt polc) 0).indexOf 1 < 1 * (2 - 1)) ∧
      (∀ j : Fin 1,
        Amat Pc polc (1/2) ((0 : Fin 1).val * (2 - 1) +
            (nonOptCore (aOpt polc) 0).indexOf 1) j.val
          = -qrowCore Pc (aOpt polc) (1/2) 0 1 j) ∧
      (∀ j, 1 ≤ j →
        Amat Pc polc (1/2) ((0 : Fin 1).val * (2 - 1) +
          (nonOptCore (aOpt polc) 0).indexOf 1) j = 0) ∧
      bvec 1 2 1 ((0 : Fin 1).val * (2 - 1) + (nonOptCore (aOpt polc) 0).indexOf 1) = 0 ∧
      (∀ x : ℕ → ℚ,
        rowSat 1 (Amat Pc polc (1/2)) (bvec 1 2 1) x
            ((0 : Fin 1).val * (2 - 1) + (nonOptCore (aOpt polc) 0).indexOf 1) ↔
          0 ≤ ∑ j : Fin 1, qrowCore Pc (aOpt polc) (1/2) 0 1 j * x j.val) ∧
      (∀ j : Fin 1,
        Amat Pc polc (1/2)
            (1 * (2 - 1) + ((0 : Fin 1).val * (2 - 1) +
              (nonOptCore (aOpt polc) 0).indexOf 1)) j.val
          = -qrowCore Pc (aOpt polc) (1/2) 0 1 j) ∧
      Amat Pc polc (1/2)
          (1 * (2 - 1) + ((0 : Fin 1).val * (2 - 1) +
            (nonOptCore (aOpt polc) 0).indexOf 1))
          (1 + (0 : Fin 1).val) = 1 ∧
      (∀ j, 1 ≤ j → j ≠ 1 + (0 : Fin 1).val →
        Amat Pc polc (1/2)
            (1 * (2 - 1) + ((0 : Fin 1).val * (2 - 1) +
              (nonOptCore (aOpt polc) 0).indexOf 1)) j
          = 0) ∧
      bvec 1 2 1
          (1 * (2 - 1) + ((0 : Fin 1).val * (2 - 1) +
            (nonOptCore (aOpt polc) 0).indexOf 1)) = 0 ∧
      (∀ x : ℕ → ℚ,
        rowSat 1 (Amat Pc polc (1/2)) (bvec 1 2 1) x
            (1 * (2 - 1) + ((0 : Fin 1).val * (2 - 1) +
              (nonOptCore (aOpt polc) 0).indexOf 1)) ↔
          x (1 + (0 : Fin 1).val) ≤
            ∑ j : Fin 1, qrowCore Pc (aOpt polc) (1/2) 0 1 j * x j.val) ∧
      (∀ r < 2 * 1 * (2 - 1), ∃ (i' : Fin 1) (a' : Fin 2), a' ≠ aOpt polc i' ∧
        (r = i'.val * (2 - 1) + (nonOptCore (aOpt polc) i').indexOf a' ∨
         r = 1 * (2 - 1) + (i'.val * (2 - 1) + (nonOptCore (aOpt polc) i').indexOf a'))) ∧
      (∀ (i' : Fin 1) (a' : Fin 2), a' ≠ aOpt polc i' →
        i'.val * (2 - 1) + (nonOptCore (aOpt polc) i').indexOf a' =
          (0 : Fin 1).val * (2 - 1) + (nonOptCore (aOpt polc) 0).indexOf 1 →
        i' = 0 ∧ a' = 1)) :=
  ⟨by with_unfolding_all decide,
    claim2_policy_rows Pc polc (1/2) 1 0 1 (by with_unfolding_all decide)⟩

/-- Claim C2, counterexample to the claim as stated: at `nS = 1`, `nA = 2`,
`P = Pc` (both actions are the certain self-loop), `policy = polc`, `γ = 1/2`,
`r_max = 1`, the point `x = (R_0, u_0, z_0) = (1, -5, 1)` is feasible for the
whole constructed LP, yet `u_0 = -5` is strictly BELOW the quantity
`(P[0,:,a*] - P[0,:,1]) · M · R = 0`: the linked row makes `u_i` a lower
bound of the quantity, so `u_i` is upper-bounded — not lower-bounded — by it. -/
theorem claim2_counterexample :
    Feasible 1 2 (Amat Pc polc (1/2)) (bvec 1 2 1) xc ∧
    xc (1 + 0) < ∑ j : Fin 1, qrowCore Pc (aOpt polc) (1/2) 0 1 j * xc j.val := by
  constructor <;> with_unfolding_all decide

/-- Claim C8: for every finite MDP (transition probabilities nonnegative and
summing to 1), every discount factor `0 ≤ γ < 1` and every tolerance `θ > 0`,
the value-iteration loop terminates: after some number `m` of full sweeps the
sweep's `delta` (the running maximum over states of `|new V[s] - old V[s]|`)
is below `θ`, and the loop, given fuel `m + 1`, exits normally returning the
value function after `m + 1` sweeps.  The proof goes through the Gauss-Seidel
contraction `delta_(k+1) ≤ γ · delta_k`, so `delta_k ≤ γ^k · delta_0 → 0`. -/
theorem claim8_value_iteration_terminates [NeZero nA] (env : Env nS nA) (θ γ : ℚ) (hmdp : IsMDP env) (hθ : 0 < θ)
    (hγ0 : 0 ≤ γ) (hγ1 : γ < 1) :
    ∃ m, (sweepAll env γ (iterSweep env γ m fun _ => 0)).2 < θ ∧
      valueIterLoop env θ γ (m + 1) (fun _ => 0) =
        some (iterSweep env γ (m + 1) fun _ => 0) := by
  have hd0 : 0 ≤ (sweepAll env γ (fun _ : Fin nS => (0:ℚ))).2 := sweepAux_le_snd env γ _ _ 0
  have hex : ∃ m, (sweepAll env γ (iterSweep env γ m fun _ => 0)).2 < θ := by
    have hpos : 0 < θ / ((sweepAll env γ (fun _ : Fin nS => (0:ℚ))).2 + 1) :=
      div_pos hθ (by linarith)
    obtain ⟨m, hm⟩ := exists_pow_lt_of_lt_one hpos hγ1
    refine ⟨m, lt_of_le_of_lt (iterSweep_delta_le env γ hmdp hγ0 (le_of_lt hγ1) _ m) ?_⟩
    have h1 : γ ^ m * (sweepAll env γ (fun _ : Fin nS => (0:ℚ))).2 ≤
        γ ^ m * ((sweepAll env γ (fun _ : Fin nS => (0:ℚ))).2 + 1) :=
      mul_le_mul_of_nonneg_left (by linarith) (pow_nonneg hγ0 m)
    have h2 : γ ^ m * ((sweepAll env γ (fun _ : Fin nS => (0:ℚ))).2 + 1) < θ :=
      (lt_div_iff₀ (by linarith)).mp hm
    linarith
  refine ⟨Nat.find hex, Nat.find_spec hex, ?_⟩
  exact valueIterLoop_exits env θ γ (Nat.find hex) _ (fun k hk => Nat.find_min hex hk)
    (Nat.find_spec hex)

/-- Witness for C8 on the concrete MDP `env1` with `θ = γ = 1/2`. -/
theorem claim8_value_iteration_terminates_witness :
    (IsMDP env1 ∧ (0:ℚ) < 1/2 ∧ (0:ℚ) ≤ 1/2 ∧ (1/2:ℚ) < 1) ∧
    ∃ m, (sweepAll env1 (1/2) (iterSweep env1 (1/2) m fun _ => 0)).2 < 1/2 ∧
      valueIterLoop env1 (1/2) (1/2) (m + 1) (fun _ => 0) =
        some (iterSweep env1 (1/2) (m + 1) fun _ => 0) :=
  ⟨⟨by with_unfolding_all decide, by norm_num, by norm_num, by norm_num⟩,
    claim8_value_iteration_terminates env1 (1/2) (1/2)
      (by with_unfolding_all decide) (by norm_num) (by norm_num) (by norm_num)⟩

end LinearIRL
